import Mathlib

/-!
Verification of the corpus-construction pipeline of BoostedFactorization
(`src/helpers.py`): truncated random walks over a graph built from an edge
list, windowed co-occurrence pair extraction, frequency aggregation with
pruning, sparse-matrix assembly, plus the auxiliary weighted sampler and the
pre-scored matrix reader.

Machine integers of the source are modelled as `Nat`/`Int`; the uniform draws
of `random` are modelled as an explicit stream of natural numbers (each draw
selects an index into the current neighbor list); probabilities and scores are
modelled as exact rationals.
-/

namespace BoostedFactorization

/-- All endpoints of the edge list, in order of appearance (with repetition).
The distinct ones are the nodes of `nx.from_edgelist`. -/
def edgeEndpoints (edges : List (Nat × Nat)) : List Nat :=
  edges.flatMap (fun e => [e.1, e.2])

/-- `len(self.graph.nodes())`: the number of distinct nodes observed in the
edge list. -/
def nodeCount (edges : List (Nat × Nat)) : Nat :=
  (edgeEndpoints edges).dedup.length

/-- `[n for n in nx.neighbors(self.graph, v)]`: the distinct neighbors of `v`
in the undirected graph built from the edge list (a self-loop makes `v` its
own neighbor once; parallel edges collapse). -/
def neighborList (edges : List (Nat × Nat)) (v : Nat) : List Nat :=
  (edges.flatMap (fun e =>
    if e.1 = v then [e.2] else if e.2 = v then [e.1] else [])).dedup

/-- Two nodes are adjacent when some edge of the list joins them (in either
orientation, the graph being undirected). -/
def adjacent (edges : List (Nat × Nat)) (a b : Nat) : Prop :=
  ∃ e ∈ edges, (e.1 = a ∧ e.2 = b) ∨ (e.1 = b ∧ e.2 = a)

instance (edges : List (Nat × Nat)) (a b : Nat) : Decidable (adjacent edges a b) :=
  List.decidableBEx _ edges

/-- One window offset of `DeepWalker.processor` on the inputs where it does
not raise (see `offsetPairsOpt` below for the fallible version): with
`sources = walk[0:len(walk)-omega]` and `nebs = walk[omega:]`, the forward
pairs `(source, nebs[i])` followed by the reversed pairs `(nebs[i], source)`. -/
def offsetPairs (walk : List Nat) (omega : Nat) : List (Nat × Nat) :=
  let sources := walk.take (walk.length - omega)
  let nebs := walk.drop omega
  sources.zip nebs ++ nebs.zip sources

/-- The pair stream of `DeepWalker.processor` on the inputs where it does not
raise: concatenation of the pairs of every window offset `omega` from `1` to
`window_size` inclusive (`processorOpt` below models the failure case and is
proved to agree with this on every success). -/
def processor (windowSize : Nat) (walk : List Nat) : List (Nat × Nat) :=
  ((List.range windowSize).map (fun j => offsetPairs walk (j + 1))).flatten

/-- The Python slice `walk[0:k]` for an arbitrary integer bound `k`: a
negative bound counts from the end of the list (`max(0, len(walk)+k)`), it
does not denote the empty slice. -/
def pySliceTo (walk : List Nat) (k : Int) : List Nat :=
  if k < 0 then walk.take (walk.length - (-k).toNat) else walk.take k.toNat

/-- One window offset of `DeepWalker.processor`, faithfully: `sources` is the
Python slice `walk[0:len(walk)-omega]` (negative bounds wrapping), `nebs` is
`walk[omega:]`, and the comprehension indexing `nebs[i]` for every position of
`sources` raises `IndexError` (`none`) when `sources` outruns `nebs`. -/
def offsetPairsOpt (walk : List Nat) (omega : Nat) : Option (List (Nat × Nat)) :=
  let sources := pySliceTo walk ((walk.length : Int) - (omega : Int))
  let nebs := walk.drop omega
  if sources.length ≤ nebs.length then
    some (sources.zip nebs ++ nebs.zip sources)
  else none

/-- `DeepWalker.processor`, faithfully: accumulate the pairs of the offsets
`1, ..., window_size` in order, an `IndexError` at any offset aborting the
whole call. -/
def processorOpt (windowSize : Nat) (walk : List Nat) : Option (List (Nat × Nat)) :=
  (List.range windowSize).foldl
    (fun acc j =>
      match acc with
      | none => none
      | some pairs =>
        match offsetPairsOpt walk (j + 1) with
        | none => none
        | some l => some (pairs ++ l))
    (some [])

/-- The pair extractor as the specification words it: for each window offset
`ω = j+1` with `j+1 ≤ window_size`, the pairs `(walk[i], walk[i+ω])` and their
reverses `(walk[i+ω], walk[i])` for every position `i` in `[0, len(walk)-ω)`.
Offsets with `ω ≥ len(walk)` contribute nothing since `len(walk)-ω = 0`. -/
def pairExtractorSpec (windowSize : Nat) (walk : List Nat) : List (Nat × Nat) :=
  ((List.range windowSize).map (fun j =>
    ((List.range (walk.length - (j + 1))).map
        (fun i => (walk.getD i 0, walk.getD (i + (j + 1)) 0)))
      ++ ((List.range (walk.length - (j + 1))).map
        (fun i => (walk.getD (i + (j + 1)) 0, walk.getD i 0))))).flatten

/-- The flattened stream of pairs emitted over the whole walk corpus
(`Counter([pair for pairs in self.container for pair in pairs])` counts this
stream). -/
def corpusPairs (windowSize : Nat) (walks : List (List Nat)) : List (Nat × Nat) :=
  (walks.map (processor windowSize)).flatten

/-- The aggregated occurrence count of one pair over the whole corpus. -/
def pairCount (windowSize : Nat) (walks : List (List Nat)) (p : Nat × Nat) : Nat :=
  (corpusPairs windowSize walks).count p

/-- Lookup in the pruned frequency mapping
`{k: v for k, v in container.items() if v > threshold}`: a pair is a key iff
it was observed (`Counter` keys have count ≥ 1) and its count exceeds the
threshold. -/
def prunedLookup (windowSize : Nat) (threshold : Int) (walks : List (List Nat))
    (p : Nat × Nat) : Option Nat :=
  let c := pairCount windowSize walks p
  if 0 < c ∧ threshold < (c : Int) then some c else none

/-- An entry of the assembled sparse matrix: the pruned count at coordinate
`(i, j)`, absent coordinates reading as zero. -/
def matrixEntry (windowSize : Nat) (threshold : Int) (walks : List (List Nat))
    (i j : Nat) : Nat :=
  (prunedLookup windowSize threshold walks (i, j)).getD 0

/-- The assembled sparse matrix: a shape and an entry-reading function. -/
structure SparseMatrix where
  shape : Nat × Nat
  entry : Nat → Nat → Nat

/-- `DeepWalker.do_processing` together with the shape fixed in
`DeepWalker.__init__`: shape `(len(nodes), len(nodes))`, entries the pruned
co-occurrence counts. The walk corpus is an explicit argument, standing for
every outcome of the random draws of `do_walks`. -/
def do_processing (edges : List (Nat × Nat)) (windowSize : Nat)
    (threshold : Int) (walks : List (List Nat)) : SparseMatrix where
  shape := (nodeCount edges, nodeCount edges)
  entry := matrixEntry windowSize threshold walks

/-- The stepping loop of `DeepWalker.do_a_walk`: while fewer than
`walk_length` nodes have been collected, look up the neighbors of the last
node; stop at a dead end, otherwise append one sampled neighbor. The uniform
draw of `random.sample(nebs, 1)` is modelled by an explicit stream `draws`,
the draw at step `i` selecting index `draws i % len(nebs)`. -/
def walkAux (edges : List (Nat × Nat)) (draws : Nat → Nat) :
    Nat → Nat → Nat → List Nat
  | _, 0, _ => []
  | cur, fuel + 1, i =>
    let nebs := neighborList edges cur
    if nebs.isEmpty then []
    else
      let nxt := nebs.getD (draws i % nebs.length) 0
      nxt :: walkAux edges draws nxt fuel (i + 1)

/-- `DeepWalker.do_a_walk`: the source node followed by at most
`walk_length - 1` sampled steps. -/
def do_a_walk (edges : List (Nat × Nat)) (walkLength : Nat) (draws : Nat → Nat)
    (node : Nat) : List Nat :=
  node :: walkAux edges draws node (walkLength - 1) 0

/-- The accumulation loop of `sampling`: add each value to the running score
and return the key as soon as the drawn value is at most the score; falling
off the end is the `assert False` branch, modelled as `none`. -/
def samplingAux (prob : ℚ) : ℚ → List (Nat × ℚ) → Option Nat
  | _, [] => none
  | score, kv :: rest =>
    if prob ≤ score + kv.2 then some kv.1 else samplingAux prob (score + kv.2) rest

/-- `sampling`: weighted key selection by a drawn value, accumulating from
score `0` in the mapping's iteration order. -/
def sampling (probs : List (Nat × ℚ)) (prob : ℚ) : Option Nat :=
  samplingAux prob 0 probs

/-- The cumulative weight of the first `n` entries of the mapping. -/
def cumWeight (probs : List (Nat × ℚ)) (n : Nat) : ℚ :=
  ((probs.take n).map (fun x => x.2)).sum

/-- The shape computed by `read_matrix`:
`(max(index_1) + 1, max(index_2) + 1)` over the `(row_id, col_id, score)`
rows. The Python `max` of a non-empty list of naturals agrees with folding
`max` from `0`; the source raises on an empty dataset, which the claims
exclude. -/
def read_matrix_shape (dataset : List (Nat × Nat × ℚ)) : Nat × Nat :=
  ((dataset.map (fun x => x.1)).foldl max 0 + 1,
    (dataset.map (fun x => x.2.1)).foldl max 0 + 1)

/-- The entry of the matrix built by `read_matrix` at `(i, j)`:
`coo_matrix` sums the scores of every row carrying that coordinate. -/
def read_matrix_entry (dataset : List (Nat × Nat × ℚ)) (i j : Nat) : ℚ :=
  ((dataset.filter (fun x => x.1 == i && x.2.1 == j)).map (fun x => x.2.2)).sum

/-- `sources` and `nebs` have the same length, so the index `nebs[i]` taken
inside the comprehension is always in range. -/
lemma offsetPairs_slice_length (walk : List Nat) (omega : Nat) :
    (walk.take (walk.length - omega)).length = (walk.drop omega).length := by
  simp [List.length_take, List.length_drop]

/-- The positionally aligned forward pairs are exactly
`(walk[i], walk[i+omega])` for `i` ranging over `[0, len(walk)-omega)`. -/
lemma zip_take_drop (walk : List Nat) (omega : Nat) :
    (walk.take (walk.length - omega)).zip (walk.drop omega)
      = (List.range (walk.length - omega)).map
          (fun i => (walk.getD i 0, walk.getD (i + omega) 0)) := by
  apply List.ext_getElem
  · simp [List.length_zip, List.length_take, List.length_drop]
  · intro n h1 h2
    have hlen : n < walk.length - omega := by
      simpa [List.length_zip, List.length_take, List.length_drop] using h1
    have hn : n < walk.length := by omega
    have hno : n + omega < walk.length := by omega
    rw [List.getElem_zip, List.getElem_map, List.getElem_range,
      List.getElem_take, List.getElem_drop,
      List.getD_eq_getElem walk 0 hn, List.getD_eq_getElem walk 0 hno]
    have hc : omega + n = n + omega := Nat.add_comm omega n
    simp [hc]

/-- The reversed pairs are exactly `(walk[i+omega], walk[i])`. -/
lemma zip_drop_take (walk : List Nat) (omega : Nat) :
    (walk.drop omega).zip (walk.take (walk.length - omega))
      = (List.range (walk.length - omega)).map
          (fun i => (walk.getD (i + omega) 0, walk.getD i 0)) := by
  rw [← List.zip_swap, zip_take_drop, List.map_map]
  rfl

/-- Helper: an offset at least the walk's length contributes no pairs. -/
lemma offsetPairs_eq_nil (walk : List Nat) (omega : Nat)
    (homega : walk.length ≤ omega) : offsetPairs walk omega = [] := by
  have htake : walk.length - omega = 0 := Nat.sub_eq_zero_of_le homega
  have hdrop : walk.drop omega = [] := List.drop_eq_nil_of_le homega
  simp [offsetPairs, htake, hdrop]

/-- The successful pair stream coincides with the specification's pair
description, offset by offset and in order. -/
lemma processor_total_eq_spec (windowSize : Nat) (walk : List Nat) :
    processor windowSize walk = pairExtractorSpec windowSize walk := by
  unfold processor pairExtractorSpec
  congr 1
  apply List.map_congr_left
  intro j _
  show offsetPairs walk (j + 1) = _
  rw [offsetPairs, zip_take_drop, zip_drop_take]

/-- On a walk of length one, every offset contributes nothing. -/
lemma processor_total_singleton (windowSize : Nat) (a : Nat) :
    processor windowSize [a] = [] := by
  unfold processor
  have h : ∀ j ∈ List.range windowSize, offsetPairs [a] (j + 1) = [] := by
    intro j _
    exact offsetPairs_eq_nil [a] (j + 1) (by simp)
  rw [List.map_congr_left h]
  simp

/-- For an offset within the walk, the faithful extractor succeeds and emits
the zip-built pairs: the slice bound `len(walk)-omega` is non-negative, so
both slices have length `len(walk)-omega`. -/
lemma offsetPairsOpt_of_le (walk : List Nat) (omega : Nat)
    (h : omega ≤ walk.length) :
    offsetPairsOpt walk omega = some (offsetPairs walk omega) := by
  have hk : ¬((walk.length : Int) - (omega : Int) < 0) := by omega
  have ht : ((walk.length : Int) - (omega : Int)).toNat = walk.length - omega := by
    omega
  rw [offsetPairsOpt, pySliceTo]
  simp only [if_neg hk, ht]
  rw [if_pos]
  · rfl
  · rw [offsetPairs_slice_length]

/-- For an offset at least twice the walk's length, the wrapped slice bound
clamps to zero, both slices are empty and the extractor emits nothing. -/
lemma offsetPairsOpt_of_ge_double (walk : List Nat) (omega : Nat)
    (h : 2 * walk.length ≤ omega) :
    offsetPairsOpt walk omega = some [] := by
  by_cases hneg : (walk.length : Int) - (omega : Int) < 0
  · have ht : ((-((walk.length : Int) - (omega : Int))).toNat) = omega - walk.length := by
      omega
    have hz : walk.length - (omega - walk.length) = 0 := by omega
    rw [offsetPairsOpt, pySliceTo]
    simp only [if_pos hneg, ht, hz, List.take_zero]
    have hdrop : walk.drop omega = [] := List.drop_eq_nil_of_le (by omega)
    simp [hdrop]
  · have hlen : walk.length = 0 := by omega
    have hnil : walk = [] := List.length_eq_zero.mp hlen
    subst hnil
    rw [offsetPairsOpt, pySliceTo]
    simp

/-- In between — `len(walk) < omega < 2·len(walk)` — the negative slice bound
wraps: `sources` is non-empty while `nebs` is empty, and indexing `nebs[i]`
raises `IndexError`. -/
lemma offsetPairsOpt_crash (walk : List Nat) (omega : Nat)
    (h1 : walk.length < omega) (h2 : omega < 2 * walk.length) :
    offsetPairsOpt walk omega = none := by
  have hneg : (walk.length : Int) - (omega : Int) < 0 := by omega
  have ht : ((-((walk.length : Int) - (omega : Int))).toNat) = omega - walk.length := by
    omega
  have hdrop : walk.drop omega = [] := List.drop_eq_nil_of_le (by omega)
  rw [offsetPairsOpt, pySliceTo]
  simp only [if_pos hneg, ht, hdrop]
  rw [if_neg]
  simp only [List.length_take, List.length_nil]
  omega

/-- When every offset succeeds with its zip-built pairs, the whole extractor
succeeds with the concatenated stream. -/
lemma processorOpt_eq_some (windowSize : Nat) (walk : List Nat)
    (h : ∀ j < windowSize,
      offsetPairsOpt walk (j + 1) = some (offsetPairs walk (j + 1))) :
    processorOpt windowSize walk = some (processor windowSize walk) := by
  induction windowSize with
  | zero => rfl
  | succ w ih =>
    have hw : ∀ j < w, offsetPairsOpt walk (j + 1) = some (offsetPairs walk (j + 1)) :=
      fun j hj => h j (Nat.lt_succ_of_lt hj)
    have hstep := h w (Nat.lt_succ_self w)
    rw [processorOpt, List.range_succ, List.foldl_append]
    rw [processorOpt] at ih
    rw [ih hw, List.foldl_cons, List.foldl_nil, hstep]
    show some ((List.map (fun j => offsetPairs walk (j + 1)) (List.range w)).flatten
        ++ offsetPairs walk (w + 1)) = some (processor (w + 1) walk)
    simp [processor, List.range_succ]

/-- **C1 — the claim fails on the code.** An offset `ω ≥ len(walk)` is
error-free and pairless only at `ω = len(walk)` and `ω ≥ 2·len(walk)`:
at the failing input `walk = [0, 1]`, `ω = 3`, the Python slice
`walk[0:-1] = [walk[0]]` is non-empty while `walk[3:]` is empty, and the
extractor raises `IndexError` instead of contributing an empty pair list. -/
theorem offset_overshoot_behavior :
    offsetPairsOpt [0, 1] 3 = none ∧
    (∀ walk : List Nat, offsetPairsOpt walk walk.length = some []) ∧
    (∀ (walk : List Nat) (omega : Nat), 2 * walk.length ≤ omega →
        offsetPairsOpt walk omega = some []) := by
  refine ⟨by decide, ?_, offsetPairsOpt_of_ge_double⟩
  intro walk
  rw [offsetPairsOpt_of_le walk walk.length (le_refl _),
    offsetPairs_eq_nil walk walk.length (le_refl _)]

/-- Witness for C1's quantified part at the walk `[0]` and offset `3`. -/
theorem offset_overshoot_behavior_witness :
    2 * ([0] : List Nat).length ≤ 3 ∧ offsetPairsOpt [0] 3 = some [] :=
  ⟨by decide, offset_overshoot_behavior.2.2 [0] 3 (by decide)⟩

/-- **C5.** Each window offset `1 ≤ ω < len(walk)` emits exactly the pairs
`(walk[i], walk[i+ω])` and `(walk[i+ω], walk[i])` for every position
`i ∈ [0, len(walk)-ω)`, with multiplicity (forward block then reversed
block); whenever the window size is at most the walk's length the whole
extractor succeeds with exactly the concatenation of these blocks over
`ω = 1, ..., window_size`; and on a walk of length 1 it returns the empty
pair list for every window size. -/
theorem processor_emits_spec_pairs :
    (∀ (walk : List Nat) (omega : Nat), 1 ≤ omega → omega < walk.length →
        offsetPairsOpt walk omega = some
          (((List.range (walk.length - omega)).map
              (fun i => (walk.getD i 0, walk.getD (i + omega) 0)))
            ++ ((List.range (walk.length - omega)).map
              (fun i => (walk.getD (i + omega) 0, walk.getD i 0))))) ∧
    (∀ (windowSize : Nat) (walk : List Nat), windowSize ≤ walk.length →
        processorOpt windowSize walk = some (pairExtractorSpec windowSize walk)) ∧
    (∀ (windowSize : Nat) (a : Nat), processorOpt windowSize [a] = some []) := by
  refine ⟨?_, ?_, ?_⟩
  · intro walk omega _ h2
    rw [offsetPairsOpt_of_le walk omega (le_of_lt h2)]
    rw [offsetPairs, zip_take_drop, zip_drop_take]
  · intro windowSize walk hW
    rw [processorOpt_eq_some windowSize walk
      (fun j hj => offsetPairsOpt_of_le walk (j + 1) (by omega)),
      processor_total_eq_spec]
  · intro windowSize a
    rw [processorOpt_eq_some windowSize [a] ?_, processor_total_singleton]
    intro j _
    cases j with
    | zero => exact offsetPairsOpt_of_le [a] 1 (by simp)
    | succ j' =>
      rw [offsetPairsOpt_of_ge_double [a] (j' + 1 + 1) (by simp),
        offsetPairs_eq_nil [a] (j' + 1 + 1) (by simp)]

/-- Witness for C5 at the walk `[4, 5]`, offset `1`, window size `1`. -/
theorem processor_emits_spec_pairs_witness :
    (1 ≤ 1 ∧ 1 < ([4, 5] : List Nat).length ∧
      offsetPairsOpt [4, 5] 1 = some
        (((List.range (([4, 5] : List Nat).length - 1)).map
            (fun i => (([4, 5] : List Nat).getD i 0, ([4, 5] : List Nat).getD (i + 1) 0)))
          ++ ((List.range (([4, 5] : List Nat).length - 1)).map
            (fun i => (([4, 5] : List Nat).getD (i + 1) 0, ([4, 5] : List Nat).getD i 0))))) ∧
    (1 ≤ ([4, 5] : List Nat).length ∧
      processorOpt 1 [4, 5] = some (pairExtractorSpec 1 [4, 5])) :=
  ⟨⟨le_refl 1, by decide, processor_emits_spec_pairs.1 [4, 5] 1 (by decide) (by decide)⟩,
    ⟨by decide, processor_emits_spec_pairs.2.1 1 [4, 5] (by decide)⟩⟩

/-- Counting a pair in a zip equals counting the swapped pair in the
swapped zip. -/
lemma count_map_swap (L : List (Nat × Nat)) (a b : Nat) :
    L.count (a, b) = (L.map Prod.swap).count (b, a) := by
  induction L with
  | nil => rfl
  | cons x L ih =>
    simp only [List.map_cons, List.count_cons, ih]
    congr 1
    simp [Prod.ext_iff, and_comm]

lemma count_zip_swap (l l' : List Nat) (a b : Nat) :
    (l.zip l').count (a, b) = (l'.zip l).count (b, a) := by
  rw [count_map_swap (l.zip l') a b, List.zip_swap]

/-- Within one window offset, `(a, b)` and `(b, a)` are emitted equally
often. -/
lemma count_offsetPairs_swap (walk : List Nat) (omega : Nat) (a b : Nat) :
    (offsetPairs walk omega).count (a, b) = (offsetPairs walk omega).count (b, a) := by
  simp only [offsetPairs, List.count_append]
  rw [count_zip_swap (walk.take (walk.length - omega)) (walk.drop omega) a b,
    count_zip_swap (walk.drop omega) (walk.take (walk.length - omega)) a b,
    Nat.add_comm]

/-- Within one processed walk, `(a, b)` and `(b, a)` are emitted equally
often. -/
lemma count_processor_swap (windowSize : Nat) (walk : List Nat) (a b : Nat) :
    (processor windowSize walk).count (a, b)
      = (processor windowSize walk).count (b, a) := by
  simp only [processor, List.count_flatten, List.map_map]
  apply congrArg List.sum
  apply List.map_congr_left
  intro j _
  exact count_offsetPairs_swap walk (j + 1) a b

/-- Over the whole corpus, `(a, b)` and `(b, a)` are counted equally. -/
lemma pairCount_swap (windowSize : Nat) (walks : List (List Nat)) (a b : Nat) :
    pairCount windowSize walks (a, b) = pairCount windowSize walks (b, a) := by
  simp only [pairCount, corpusPairs, List.count_flatten, List.map_map]
  apply congrArg List.sum
  apply List.map_congr_left
  intro w _
  exact count_processor_swap windowSize w a b

/-- **C2.** The aggregated count of `(i, j)` equals that of `(j, i)`, and the
final matrix produced by `do_processing` is symmetric entrywise. -/
theorem do_processing_symmetric (edges : List (Nat × Nat)) (windowSize : Nat)
    (threshold : Int) (walks : List (List Nat)) (i j : Nat) :
    pairCount windowSize walks (i, j) = pairCount windowSize walks (j, i) ∧
    (do_processing edges windowSize threshold walks).entry i j
      = (do_processing edges windowSize threshold walks).entry j i := by
  have hc := pairCount_swap windowSize walks i j
  exact ⟨hc, by simp [do_processing, matrixEntry, prunedLookup, hc]⟩

/-- **C4.** The pruned mapping stores exactly the observed pairs whose count
strictly exceeds the threshold: a stored count is the aggregated count and is
`> threshold`; a pair with count `≤ threshold` is absent; at threshold `0`
exactly the observed pairs are retained. -/
theorem prunedLookup_characterization (windowSize : Nat) (threshold : Int)
    (walks : List (List Nat)) (p : Nat × Nat) :
    (∀ c, prunedLookup windowSize threshold walks p = some c →
        c = pairCount windowSize walks p ∧ threshold < (c : Int)) ∧
    ((pairCount windowSize walks p : Int) ≤ threshold →
        prunedLookup windowSize threshold walks p = none) ∧
    (threshold = 0 →
        ((prunedLookup windowSize threshold walks p).isSome
          ↔ p ∈ corpusPairs windowSize walks)) := by
  refine ⟨?_, ?_, ?_⟩
  · intro c hc
    by_cases h : 0 < pairCount windowSize walks p ∧
        threshold < (pairCount windowSize walks p : Int)
    · simp only [prunedLookup, if_pos h, Option.some.injEq] at hc
      exact ⟨hc.symm, hc ▸ h.2⟩
    · simp [prunedLookup, if_neg h] at hc
  · intro hle
    have h : ¬(0 < pairCount windowSize walks p ∧
        threshold < (pairCount windowSize walks p : Int)) := by
      intro h
      exact absurd hle (not_le.mpr h.2)
    simp [prunedLookup, if_neg h]
  · intro ht
    subst ht
    constructor
    · intro h
      have h' : 0 < pairCount windowSize walks p := by
        simpa [prunedLookup] using h
      exact List.count_pos_iff.mp h'
    · intro h
      have hpos : 0 < pairCount windowSize walks p :=
        List.count_pos_iff.mpr h
      simpa [prunedLookup] using hpos

/-- Witness for C4: in the corpus of the single walk `[0, 1]` with window
size 1, the pair `(0, 1)` has count 1, so it is pruned away at threshold 1. -/
theorem prunedLookup_characterization_witness :
    ((pairCount 1 [[0, 1]] (0, 1) : Int) ≤ 1) ∧
      prunedLookup 1 1 [[0, 1]] (0, 1) = none :=
  ⟨by decide, (prunedLookup_characterization 1 1 [[0, 1]] (0, 1)).2.1 (by decide)⟩

/-- A sum of even naturals is even. -/
lemma even_list_sum (l : List Nat) (h : ∀ x ∈ l, Even x) : Even l.sum := by
  induction l with
  | nil => exact ⟨0, rfl⟩
  | cons x l ih =>
    rw [List.sum_cons]
    exact (h x (by simp)).add (ih (fun y hy => h y (List.mem_cons_of_mem x hy)))

/-- One offset emits a diagonal pair an even number of times (once forward,
once reversed, for each position where it arises). -/
lemma even_count_offsetPairs_diag (walk : List Nat) (omega : Nat) (a : Nat) :
    Even ((offsetPairs walk omega).count (a, a)) := by
  simp only [offsetPairs, List.count_append]
  have h := count_zip_swap (walk.take (walk.length - omega)) (walk.drop omega) a a
  exact ⟨((walk.take (walk.length - omega)).zip (walk.drop omega)).count (a, a),
    by omega⟩

/-- One processed walk emits a diagonal pair an even number of times. -/
lemma even_count_processor_diag (windowSize : Nat) (walk : List Nat) (a : Nat) :
    Even ((processor windowSize walk).count (a, a)) := by
  simp only [processor, List.count_flatten, List.map_map]
  apply even_list_sum
  intro x hx
  obtain ⟨j, _, rfl⟩ := List.mem_map.mp hx
  exact even_count_offsetPairs_diag walk (j + 1) a

/-- **C10.** Every diagonal co-occurrence count aggregated over the corpus is
even, and so is every diagonal entry of the final matrix. -/
theorem diagonal_counts_even (windowSize : Nat) (threshold : Int)
    (walks : List (List Nat)) (a : Nat) :
    Even (pairCount windowSize walks (a, a)) ∧
    Even (matrixEntry windowSize threshold walks a a) := by
  have hcorpus : Even (pairCount windowSize walks (a, a)) := by
    simp only [pairCount, corpusPairs, List.count_flatten, List.map_map]
    apply even_list_sum
    intro x hx
    obtain ⟨w, _, rfl⟩ := List.mem_map.mp hx
    exact even_count_processor_diag windowSize w a
  refine ⟨hcorpus, ?_⟩
  rw [matrixEntry, prunedLookup]
  by_cases hc : 0 < pairCount windowSize walks (a, a) ∧
      threshold < (pairCount windowSize walks (a, a) : Int)
  · simpa [hc] using hcorpus
  · simp [hc]

/-- **C6.** Pruning is antitone in the threshold: a pair surviving at the
higher threshold survives at the lower one, both in the pruned mapping and as
a non-zero matrix entry. -/
theorem pruning_antitone (windowSize : Nat) (walks : List (List Nat))
    (t1 t2 : Int) (h : t1 < t2) (p : Nat × Nat) (i j : Nat) :
    ((prunedLookup windowSize t2 walks p).isSome →
        (prunedLookup windowSize t1 walks p).isSome) ∧
    (matrixEntry windowSize t2 walks i j ≠ 0 →
        matrixEntry windowSize t1 walks i j ≠ 0) := by
  constructor
  · intro hs
    by_cases hc : 0 < pairCount windowSize walks p ∧
        t2 < (pairCount windowSize walks p : Int)
    · have hc1 : 0 < pairCount windowSize walks p ∧
          t1 < (pairCount windowSize walks p : Int) :=
        ⟨hc.1, lt_trans h hc.2⟩
      simp [prunedLookup, if_pos hc1]
    · rw [prunedLookup] at hs
      simp only [if_neg hc] at hs
      simp at hs
  · intro hne
    by_cases hc : 0 < pairCount windowSize walks (i, j) ∧
        t2 < (pairCount windowSize walks (i, j) : Int)
    · have hc1 : 0 < pairCount windowSize walks (i, j) ∧
          t1 < (pairCount windowSize walks (i, j) : Int) :=
        ⟨hc.1, lt_trans h hc.2⟩
      rw [matrixEntry, prunedLookup]
      simp only [if_pos hc1, Option.getD_some]
      omega
    · rw [matrixEntry, prunedLookup] at hne
      simp only [if_neg hc, Option.getD_none] at hne
      exact absurd rfl hne

/-- Witness for C6 at a concrete corpus: the walk `[0, 1]` with window size 1
and thresholds `0 < 1`. -/
theorem pruning_antitone_witness :
    (0 : Int) < 1 ∧
    (((prunedLookup 1 1 [[0, 1]] (0, 1)).isSome →
        (prunedLookup 1 0 [[0, 1]] (0, 1)).isSome) ∧
      (matrixEntry 1 1 [[0, 1]] 0 1 ≠ 0 → matrixEntry 1 0 [[0, 1]] 0 1 ≠ 0)) :=
  ⟨by decide, pruning_antitone 1 [[0, 1]] 0 1 (by decide) (0, 1) 0 1⟩

/-- **C7.** The matrix shape is the square of the number of distinct nodes
observed in the edge list, whatever the threshold and corpus; in particular
the edge list `[(0,1),(1,2),(0,3)]` yields shape `(4,4)` even when everything
is pruned, and `[(0,7)]` yields `(2,2)` (node count, not max id plus one). -/
theorem do_processing_shape :
    (∀ (edges : List (Nat × Nat)) (windowSize : Nat) (threshold : Int)
        (walks : List (List Nat)),
      (do_processing edges windowSize threshold walks).shape
        = ((edgeEndpoints edges).toFinset.card, (edgeEndpoints edges).toFinset.card)) ∧
    (do_processing [(0, 1), (1, 2), (0, 3)] 3 1000 []).shape = (4, 4) ∧
    (do_processing [(0, 7)] 3 0 []).shape = (2, 2) := by
  refine ⟨?_, by decide, by decide⟩
  intro edges windowSize threshold walks
  show (nodeCount edges, nodeCount edges) = _
  rw [List.card_toFinset, nodeCount]

lemma length_walkAux_le (edges : List (Nat × Nat)) (draws : Nat → Nat) :
    ∀ (fuel cur i : Nat), (walkAux edges draws cur fuel i).length ≤ fuel := by
  intro fuel
  induction fuel with
  | zero => intro cur i; simp [walkAux]
  | succ fuel ih =>
    intro cur i
    rw [walkAux]
    by_cases h : (neighborList edges cur).isEmpty
    · simp [h]
    · simp only [if_neg h, List.length_cons]
      exact Nat.succ_le_succ (ih _ _)

/-- Membership in the neighbor list certifies adjacency in the edge list. -/
lemma adjacent_of_mem_neighborList (edges : List (Nat × Nat)) (v x : Nat)
    (hx : x ∈ neighborList edges v) : adjacent edges v x := by
  rw [neighborList, List.mem_dedup, List.mem_flatMap] at hx
  obtain ⟨e, he, hxe⟩ := hx
  by_cases h1 : e.1 = v
  · simp only [if_pos h1, List.mem_singleton] at hxe
    exact ⟨e, he, Or.inl ⟨h1, hxe.symm⟩⟩
  · by_cases h2 : e.2 = v
    · simp only [if_neg h1, if_pos h2, List.mem_singleton] at hxe
      exact ⟨e, he, Or.inr ⟨hxe.symm, h2⟩⟩
    · simp [if_neg h1, if_neg h2] at hxe

/-- Every node appended by the stepping loop is a neighbor of its
predecessor. -/
lemma chain'_walkAux (edges : List (Nat × Nat)) (draws : Nat → Nat) :
    ∀ (fuel cur i : Nat),
      List.Chain' (adjacent edges) (cur :: walkAux edges draws cur fuel i) := by
  intro fuel
  induction fuel with
  | zero => intro cur i; simp [walkAux]
  | succ fuel ih =>
    intro cur i
    rw [walkAux]
    by_cases h : (neighborList edges cur).isEmpty
    · simp [h]
    · simp only [if_neg h]
      have hpos : 0 < (neighborList edges cur).length := by
        rcases Nat.eq_zero_or_pos (neighborList edges cur).length with h0 | h0
        · exact absurd (List.isEmpty_iff_length_eq_zero.mpr h0) h
        · exact h0
      have hidx : draws i % (neighborList edges cur).length
          < (neighborList edges cur).length := Nat.mod_lt _ hpos
      have hmem : (neighborList edges cur).getD
          (draws i % (neighborList edges cur).length) 0 ∈ neighborList edges cur := by
        rw [List.getD_eq_getElem _ _ hidx]
        exact List.getElem_mem hidx
      exact List.chain'_cons.mpr
        ⟨adjacent_of_mem_neighborList edges cur _ hmem, ih _ _⟩

/-- Counterexample to C3 as stated: at the configurable value
`walk_length = 0` the returned walk still has one node, so its length does not
lie in `[1, walk_length]`. -/
theorem do_a_walk_length_zero_cex :
    0 ∈ edgeEndpoints [(0, 1)] ∧
      ¬((do_a_walk [(0, 1)] 0 (fun _ => 0) 0).length ≤ 0) := by
  decide

/-- **C3 (amended: `walk_length ≥ 1`).** The walk starts at the source,
has length in `[1, walk_length]`, and consecutive nodes are joined by an edge
of the graph. -/
theorem do_a_walk_valid (edges : List (Nat × Nat)) (walkLength : Nat)
    (draws : Nat → Nat) (node : Nat) (hnode : node ∈ edgeEndpoints edges)
    (hlen : 1 ≤ walkLength) :
    (do_a_walk edges walkLength draws node).head? = some node ∧
    1 ≤ (do_a_walk edges walkLength draws node).length ∧
    (do_a_walk edges walkLength draws node).length ≤ walkLength ∧
    List.Chain' (adjacent edges) (do_a_walk edges walkLength draws node) := by
  refine ⟨rfl, by simp [do_a_walk], ?_, chain'_walkAux edges draws _ node 0⟩
  have h := length_walkAux_le edges draws (walkLength - 1) node 0
  simp only [do_a_walk, List.length_cons]
  omega

/-- Witness for C3 on the single-edge graph `0 — 1` with `walk_length = 2`. -/
theorem do_a_walk_valid_witness :
    0 ∈ edgeEndpoints [(0, 1)] ∧ 1 ≤ 2 ∧
    ((do_a_walk [(0, 1)] 2 (fun _ => 0) 0).head? = some 0 ∧
      1 ≤ (do_a_walk [(0, 1)] 2 (fun _ => 0) 0).length ∧
      (do_a_walk [(0, 1)] 2 (fun _ => 0) 0).length ≤ 2 ∧
      List.Chain' (adjacent [(0, 1)]) (do_a_walk [(0, 1)] 2 (fun _ => 0) 0)) :=
  ⟨by decide, by decide,
    do_a_walk_valid [(0, 1)] 2 (fun _ => 0) 0 (by decide) (by decide)⟩

lemma samplingAux_eq_none_iff (prob : ℚ) :
    ∀ (probs : List (Nat × ℚ)) (s : ℚ),
      samplingAux prob s probs = none ↔
        ∀ i < probs.length,
          s + ((probs.take (i + 1)).map (fun x => x.2)).sum < prob := by
  intro probs
  induction probs with
  | nil => intro s; simp [samplingAux]
  | cons kv rest ih =>
    intro s
    rw [samplingAux]
    by_cases h : prob ≤ s + kv.2
    · simp only [if_pos h]
      constructor
      · intro hnone; exact absurd hnone (by simp)
      · intro hall
        have h0 := hall 0 (by simp)
        simp only [List.take_succ_cons, List.take_zero, List.map_cons,
          List.map_nil, List.sum_cons, List.sum_nil, add_zero] at h0
        linarith
    · simp only [if_neg h]
      rw [ih (s + kv.2)]
      constructor
      · intro hall i hi
        cases i with
        | zero =>
          simp only [List.take_succ_cons, List.take_zero, List.map_cons,
            List.map_nil, List.sum_cons, List.sum_nil, add_zero]
          linarith [lt_of_not_le h]
        | succ j =>
          have hj := hall j (by simpa using Nat.lt_of_succ_lt_succ hi)
          simp only [List.take_succ_cons, List.map_cons, List.sum_cons]
          linarith
      · intro hall j hj
        have hsj := hall (j + 1) (by simpa using Nat.succ_lt_succ hj)
        simp only [List.take_succ_cons, List.map_cons, List.sum_cons] at hsj
        linarith

lemma samplingAux_eq_some (prob : ℚ) :
    ∀ (probs : List (Nat × ℚ)) (s : ℚ) (k : Nat),
      samplingAux prob s probs = some k →
        ∃ i, ∃ h : i < probs.length, (probs.get ⟨i, h⟩).1 = k ∧
          prob ≤ s + ((probs.take (i + 1)).map (fun x => x.2)).sum ∧
          ∀ j < i, s + ((probs.take (j + 1)).map (fun x => x.2)).sum < prob := by
  intro probs
  induction probs with
  | nil => intro s k h; exact absurd h (by simp [samplingAux])
  | cons kv rest ih =>
    intro s k hk
    rw [samplingAux] at hk
    by_cases h : prob ≤ s + kv.2
    · simp only [if_pos h, Option.some.injEq] at hk
      refine ⟨0, by simp, hk, ?_, by omega⟩
      simpa using h
    · simp only [if_neg h] at hk
      obtain ⟨i, hi, hget, hcum, hbefore⟩ := ih (s + kv.2) k hk
      refine ⟨i + 1, by simpa using Nat.succ_lt_succ hi, by simpa using hget, ?_, ?_⟩
      · simp only [List.take_succ_cons, List.map_cons, List.sum_cons]
        linarith
      · intro j hj
        cases j with
        | zero =>
          simp only [List.take_succ_cons, List.take_zero, List.map_cons,
            List.map_nil, List.sum_cons, List.sum_nil, add_zero]
          linarith [lt_of_not_le h]
        | succ j' =>
          have := hbefore j' (Nat.lt_of_succ_lt_succ hj)
          simp only [List.take_succ_cons, List.map_cons, List.sum_cons]
          linarith

/-- **C8.** The sampler returns the first key, in iteration order, whose
cumulative weight meets or exceeds the draw; the assertion branch (`none`)
fires exactly when no cumulative prefix weight reaches the draw; and when the
weights sum to at least `1` while the draw lies in `[0, 1)`, the assertion
branch is unreachable. -/
theorem sampling_characterization (probs : List (Nat × ℚ)) (prob : ℚ)
    (hw : ∀ x ∈ probs, 0 ≤ x.2) (h0 : 0 ≤ prob) (h1 : prob < 1) :
    (sampling probs prob = none ↔
        ∀ i < probs.length, cumWeight probs (i + 1) < prob) ∧
    (∀ k, sampling probs prob = some k →
        ∃ i, ∃ h : i < probs.length, (probs.get ⟨i, h⟩).1 = k ∧
          prob ≤ cumWeight probs (i + 1) ∧
          ∀ j < i, cumWeight probs (j + 1) < prob) ∧
    (1 ≤ cumWeight probs probs.length → (sampling probs prob).isSome) := by
  have hnone := samplingAux_eq_none_iff prob probs 0
  refine ⟨by simpa [sampling, cumWeight] using hnone, ?_, ?_⟩
  · intro k hk
    have := samplingAux_eq_some prob probs 0 k hk
    simpa [cumWeight] using this
  · intro htot
    cases hs : sampling probs prob with
    | some k => rfl
    | none =>
      exfalso
      have hall : ∀ i < probs.length, cumWeight probs (i + 1) < prob := by
        have := hnone.mp hs
        simpa [cumWeight] using this
      cases probs with
      | nil => simp [cumWeight] at htot; linarith
      | cons kv rest =>
        have hlast := hall rest.length (by simp)
        have hlen : (kv :: rest).length = rest.length + 1 := by simp
        rw [hlen] at htot
        linarith

/-- Witness for C8 at the one-entry mapping `{7 : 1}` and draw `0`. -/
theorem sampling_characterization_witness :
    (∀ x ∈ [((7 : Nat), (1 : ℚ))], 0 ≤ x.2) ∧ (0 : ℚ) ≤ 0 ∧ (0 : ℚ) < 1 ∧
    ((sampling [(7, 1)] 0 = none ↔
        ∀ i < ([((7 : Nat), (1 : ℚ))]).length, cumWeight [(7, 1)] (i + 1) < 0) ∧
      (∀ k, sampling [(7, 1)] 0 = some k →
        ∃ i, ∃ h : i < ([((7 : Nat), (1 : ℚ))]).length,
          (([((7 : Nat), (1 : ℚ))]).get ⟨i, h⟩).1 = k ∧
          (0 : ℚ) ≤ cumWeight [(7, 1)] (i + 1) ∧
          ∀ j < i, cumWeight [(7, 1)] (j + 1) < 0) ∧
      (1 ≤ cumWeight [(7, 1)] ([((7 : Nat), (1 : ℚ))]).length →
        (sampling [(7, 1)] 0).isSome)) :=
  ⟨by decide, by decide, by decide,
    sampling_characterization [(7, 1)] 0 (by decide) (by decide) (by decide)⟩

lemma init_le_foldl_max : ∀ (l : List Nat) (b : Nat), b ≤ l.foldl max b := by
  intro l
  induction l with
  | nil => intro b; exact le_refl b
  | cons x l ih =>
    intro b
    exact le_trans (le_max_left b x) (ih (max b x))

lemma le_foldl_max_of_mem : ∀ (l : List Nat) (b a : Nat), a ∈ l → a ≤ l.foldl max b := by
  intro l
  induction l with
  | nil => intro b a ha; exact absurd ha (by simp)
  | cons x l ih =>
    intro b a ha
    rcases List.mem_cons.mp ha with rfl | ha
    · exact le_trans (le_max_right b a) (init_le_foldl_max l (max b a))
    · exact ih (max b x) a ha

lemma foldl_max_mem : ∀ (l : List Nat) (b : Nat), l.foldl max b = b ∨ l.foldl max b ∈ l := by
  intro l
  induction l with
  | nil => intro b; exact Or.inl rfl
  | cons x l ih =>
    intro b
    rcases ih (max b x) with h | h
    · rcases max_choice b x with hb | hx
      · exact Or.inl (by rw [List.foldl_cons, h, hb])
      · exact Or.inr (by rw [List.foldl_cons, h, hx]; exact List.mem_cons_self x l)
    · exact Or.inr (List.mem_cons_of_mem x h)

lemma foldl_max_mem_of_ne_nil (l : List Nat) (h : l ≠ []) : l.foldl max 0 ∈ l := by
  rcases foldl_max_mem l 0 with h0 | hm
  · cases l with
    | nil => exact absurd rfl h
    | cons x l =>
      have hx : x ≤ (x :: l).foldl max 0 :=
        le_foldl_max_of_mem (x :: l) 0 x (List.mem_cons_self x l)
      rw [h0] at hx
      rw [h0]
      have : x = 0 := Nat.le_zero.mp hx
      rw [← this]
      exact List.mem_cons_self x l
  · exact hm

/-- With pairwise-distinct coordinates, the assembled entry at a row's
coordinate is that row's score. -/
lemma read_matrix_entry_of_nodup :
    ∀ (dataset : List (Nat × Nat × ℚ)),
      (dataset.map (fun x => (x.1, x.2.1))).Nodup →
        ∀ x ∈ dataset, read_matrix_entry dataset x.1 x.2.1 = x.2.2 := by
  intro dataset
  induction dataset with
  | nil => intro _ x hx; exact absurd hx (by simp)
  | cons y rest ih =>
    intro hnd x hx
    rw [List.map_cons, List.nodup_cons] at hnd
    obtain ⟨hy, hrest⟩ := hnd
    rcases List.mem_cons.mp hx with rfl | hx
    · have hfilter : rest.filter (fun z => z.1 == x.1 && z.2.1 == x.2.1) = [] := by
        rw [List.filter_eq_nil_iff]
        intro z hz hp
        apply hy
        rw [Bool.and_eq_true, beq_iff_eq, beq_iff_eq] at hp
        have : (z.1, z.2.1) = (x.1, x.2.1) := by rw [hp.1, hp.2]
        rw [← this]
        exact List.mem_map_of_mem (fun w => (w.1, w.2.1)) hz
      rw [read_matrix_entry, List.filter_cons]
      simp only [beq_self_eq_true, Bool.and_self, if_pos]
      rw [hfilter]
      simp
    · have hyne : ¬(y.1 == x.1 && y.2.1 == x.2.1) = true := by
        intro hp
        apply hy
        rw [Bool.and_eq_true, beq_iff_eq, beq_iff_eq] at hp
        have : (y.1, y.2.1) = (x.1, x.2.1) := by rw [hp.1, hp.2]
        rw [this]
        exact List.mem_map_of_mem (fun w => (w.1, w.2.1)) hx
      have := ih hrest x hx
      rw [read_matrix_entry, List.filter_cons, if_neg hyne]
      exact this

/-- **C9.** For a non-empty dataset, the shape of `read_matrix` is
`(max row_id + 1, max col_id + 1)` — every coordinate fits and both maxima are
attained — each score lands at its coordinate (for distinct coordinates), and
this shape derivation differs from the edge-list path's node-count shape: the
single row `(0, 2, 1)` gives shape `(1, 3)` while the single edge `(0, 2)`
gives a node count of `2`. -/
theorem read_matrix_correct (dataset : List (Nat × Nat × ℚ)) (h : dataset ≠ []) :
    (∀ x ∈ dataset, x.1 < (read_matrix_shape dataset).1 ∧
        x.2.1 < (read_matrix_shape dataset).2) ∧
    (∃ x ∈ dataset, x.1 + 1 = (read_matrix_shape dataset).1) ∧
    (∃ x ∈ dataset, x.2.1 + 1 = (read_matrix_shape dataset).2) ∧
    ((dataset.map (fun x => (x.1, x.2.1))).Nodup →
        ∀ x ∈ dataset, read_matrix_entry dataset x.1 x.2.1 = x.2.2) ∧
    (read_matrix_shape [(0, 2, (1 : ℚ))] = (1, 3) ∧ nodeCount [(0, 2)] = 2) := by
  refine ⟨?_, ?_, ?_, read_matrix_entry_of_nodup dataset, by decide, by decide⟩
  · intro x hx
    constructor
    · have := le_foldl_max_of_mem (dataset.map (fun z => z.1)) 0 x.1
        (List.mem_map_of_mem (fun z => z.1) hx)
      simpa [read_matrix_shape, Nat.lt_succ_iff] using this
    · have := le_foldl_max_of_mem (dataset.map (fun z => z.2.1)) 0 x.2.1
        (List.mem_map_of_mem (fun z => z.2.1) hx)
      simpa [read_matrix_shape, Nat.lt_succ_iff] using this
  · have hne : dataset.map (fun z => z.1) ≠ [] := by
      simpa using h
    obtain ⟨x, hxmem, hx⟩ := List.mem_map.mp (foldl_max_mem_of_ne_nil _ hne)
    exact ⟨x, hxmem, by rw [read_matrix_shape, hx]⟩
  · have hne : dataset.map (fun z => z.2.1) ≠ [] := by
      simpa using h
    obtain ⟨x, hxmem, hx⟩ := List.mem_map.mp (foldl_max_mem_of_ne_nil _ hne)
    exact ⟨x, hxmem, by rw [read_matrix_shape, hx]⟩

/-- Witness for C9 at the two-row dataset `[(1, 0, 3), (0, 2, 5)]`. -/
theorem read_matrix_correct_witness :
    ([((1 : Nat), (0 : Nat), (3 : ℚ)), (0, 2, 5)] ≠ []) ∧
    ((∀ x ∈ [((1 : Nat), (0 : Nat), (3 : ℚ)), (0, 2, 5)],
        x.1 < (read_matrix_shape [(1, 0, 3), (0, 2, 5)]).1 ∧
        x.2.1 < (read_matrix_shape [(1, 0, 3), (0, 2, 5)]).2) ∧
      (∃ x ∈ [((1 : Nat), (0 : Nat), (3 : ℚ)), (0, 2, 5)],
        x.1 + 1 = (read_matrix_shape [(1, 0, 3), (0, 2, 5)]).1) ∧
      (∃ x ∈ [((1 : Nat), (0 : Nat), (3 : ℚ)), (0, 2, 5)],
        x.2.1 + 1 = (read_matrix_shape [(1, 0, 3), (0, 2, 5)]).2) ∧
      ((([((1 : Nat), (0 : Nat), (3 : ℚ)), (0, 2, 5)]).map
          (fun x => (x.1, x.2.1))).Nodup →
        ∀ x ∈ [((1 : Nat), (0 : Nat), (3 : ℚ)), (0, 2, 5)],
          read_matrix_entry [(1, 0, 3), (0, 2, 5)] x.1 x.2.1 = x.2.2) ∧
      (read_matrix_shape [(0, 2, (1 : ℚ))] = (1, 3) ∧ nodeCount [(0, 2)] = 2)) :=
  ⟨by decide, read_matrix_correct [(1, 0, 3), (0, 2, 5)] (by decide)⟩

end BoostedFactorization
